import Mathlib

/-!
Verification of `neuralprophet/classification.py` (`Classification_NP`).

The file shallowly embeds the classifier layer of the repository:
construction (`__init__`), training entry (`fit`) and prediction
post-processing (`predict`).  Machine floats of the Python runtime are
modelled by `ℚ`; `numpy`'s `round` (round half to even) is modelled by
`roundHalfEven`; Python's `str.lower` is modelled by `pyLower` (the
relevant strings are ASCII); pandas `groupby` iterates groups in
ascending key order (its default `sort=True`), modelled by sorting the
distinct identifiers with `strLe`, the code-point lexicographic order
Python uses on strings.
-/

namespace Classification

/-- Model of Python `str.lower` (character-wise lowering; the metric and
loss names involved are ASCII, where this agrees with Python). -/
def pyLower (s : String) : String := ⟨s.data.map Char.toLower⟩

/-- Lexicographic comparison of character lists by code point. -/
def charListLe : List Char → List Char → Bool
  | [], _ => true
  | _ :: _, [] => false
  | a :: as, b :: bs => if a < b then true else if b < a then false else charListLe as bs

/-- Model of Python string `<=` (code-point lexicographic), the order pandas
uses to sort group keys. -/
def strLe (a b : String) : Bool := charListLe a.data b.data

/-- Universe of Python values the `collect_metrics` argument can take.
`int` stands in for values of any type other than `None`, `bool`, `str`
and `list` (for example the integer `42`). -/
inductive PyVal where
  | none
  | bool (b : Bool)
  | str (s : String)
  | list (l : List String)
  | int (n : ℤ)
deriving DecidableEq

/-- Metric objects from `neuralprophet.metrics` as used by `__init__`:
`LossMetric(loss_func)`, `Accuracy`, `Balanced_Accuracy`, `F1Score`. -/
inductive Metric where
  | LossMetric (loss_func : String)
  | Accuracy
  | Balanced_Accuracy
  | F1Score
deriving DecidableEq

/-- Model of `metrics.ValueMetric(name)`. -/
structure ValueMetric where
  name : String
deriving DecidableEq

/-- Model of `metrics.MetricsCollection(metrics=..., value_metrics=...)`. -/
structure MetricsCollection where
  metrics : List Metric
  value_metrics : List ValueMetric
deriving DecidableEq

/-- Modelled from the spec: `configure.from_kwargs(configure.Train, kwargs)`
is not under `src/`; per the spec the loss-function configuration value is
overridden with the classifier's chosen identifier, so the resolved train
configuration is modelled as carrying that identifier. -/
structure TrainConfig where
  loss_func : String
deriving DecidableEq

/-- State of a constructed `Classification_NP` instance: the attributes
`__init__` sets after delegating to the forecaster's constructor. -/
structure Classifier where
  classification_task : Bool
  name : String
  config_train : TrainConfig
  metrics : Option MetricsCollection
deriving DecidableEq

/-- Keys of the `METRICS` dictionary in `__init__`. -/
def METRICS_keys : List String := ["acc", "bal_acc", "f1"]

/-- Lookup in the `METRICS` dictionary.  It is only ever indexed with a key
that passed the membership validation, so the final branch (Python would
raise `KeyError`) is unreachable in the embedded code paths. -/
def METRICS_at (s : String) : Metric :=
  if s = "acc" then .Accuracy
  else if s = "bal_acc" then .Balanced_Accuracy
  else .F1Score

/-- The `MetricsCollection` built at the end of `__init__` when
`collect_metrics` resolved to a list: one `LossMetric` bound to the
configured loss function, one metric object per requested name
(lower-cased dictionary lookup), and one `ValueMetric "Loss"`. -/
def buildCollection (loss_func : String) (collect : List String) : MetricsCollection :=
  { metrics := .LossMetric loss_func :: collect.map (fun m => METRICS_at (pyLower m))
  , value_metrics := [⟨"Loss"⟩] }

/-- The `collect_metrics` branch cascade of `__init__`: `None` becomes the
empty list, `True` the three supported names, a string is validated
case-insensitively and wrapped, a list is validated element-wise, `False`
is kept (it is not a list, so no collection is built), and anything else
raises `ValueError`.  `some l` means `collect_metrics` ended up as the
list `l`; `none` means it stayed the non-list value `False`. -/
def resolveCollect : PyVal → Except String (Option (List String))
  | .none => .ok (some [])
  | .bool true => .ok (some ["acc", "bal_acc", "f1"])
  | .str s =>
      if pyLower s ∈ METRICS_keys then .ok (some [s])
      else .error "Received unsupported argument for collect_metrics."
  | .list l =>
      if l.all (fun m => decide (pyLower m ∈ METRICS_keys)) then .ok (some l)
      else .error "Received unsupported argument for collect_metrics."
  | .bool false => .ok none
  | .int _ => .error "Received unsupported argument for collect_metrics."

/-- Model of `Classification_NP.__init__` after the delegated
`super().__init__`: override the loss function in the train configuration,
set the classification flag and the name, resolve `collect_metrics`, and
build the metrics collection exactly when the resolved value is a list. -/
def init (loss_func : String) (collect_metrics : PyVal) : Except String Classifier :=
  match resolveCollect collect_metrics with
  | .error e => .error e
  | .ok r =>
      .ok { classification_task := true
          , name := "NeuralProphetBinaryClassifier"
          , config_train := { loss_func := loss_func }
          , metrics := r.map (buildCollection loss_func) }

/-- Arguments of a `fit` call that are forwarded to `super().fit`.  The
training dataframe and validation dataframe contents are irrelevant to the
control flow of `Classification_NP.fit`, so they are carried opaquely. -/
structure FitCall where
  df : String
  freq : String
  validation_df : Option String
  progress : String
  minimal : Bool
deriving DecidableEq

/-- Modelled from the spec: `df_utils.get_max_num_lags` is not under
`src/`; per the spec it is the maximum lag window across all configured
covariates and the model's own autoregression order (`n_lags` alone when
no covariates are configured). -/
def get_max_num_lags (config_covar : Option (List ℕ)) (n_lags : ℕ) : ℕ :=
  match config_covar with
  | Option.none => n_lags
  | some ls => ls.foldl max n_lags

/-- Result of a `fit` call: the warnings logged, the info messages logged,
and either the raised error message or the value returned by
`super().fit` (the delegate), returned unchanged. -/
structure FitOutput (α : Type) where
  warnings : List String
  infos : List String
  result : Except String α

/-- Model of `Classification_NP.fit`.  `superFit` stands for the inherited
`super().fit`; it is applied exactly on the delegation path, to the same
arguments the call received. -/
def fit {α : Type} (superFit : FitCall → α) (config_covar : Option (List ℕ))
    (n_lags : ℕ) (loss_func_name : String) (c : FitCall) : FitOutput α :=
  let max_lags := get_max_num_lags config_covar n_lags
  let w1 : List String :=
    if 0 < n_lags then
      ["Warning! Auto-regression is activated, the model is using the classifier label as input. Please consider setting n_lags=0."]
    else []
  let w2 : List String :=
    if max_lags = 0 then
      ["Warning! Please add lagged regressor as the input of the classifier"]
    else []
  if pyLower loss_func_name ∈ ["bce", "bceloss"] then
    { warnings := w1 ++ w2
    , infos := ["Classification with bce loss"]
    , result := .ok (superFit c) }
  else
    { warnings := w1 ++ w2
    , infos := []
    , result := .error ("Currently NeuralProphet Classification module does not support "
        ++ loss_func_name ++ " loss function. Please, set loss function to 'bce' ") }

/-- Column labels of the prediction frame.  These model the formatted
column-name strings of the source: `Col.yhat i` is `"yhat{i}"`,
`Col.yhat_raw i` is `"yhat_raw{i}"` and `Col.residual i` is
`"residual{i}"`; distinct constructors and distinct indices correspond
exactly to distinct strings. -/
inductive Col where
  | yhat (i : ℕ)
  | yhat_raw (i : ℕ)
  | residual (i : ℕ)
deriving DecidableEq

/-- One row of the canonical multi-series frame `prep_or_copy_df` returns:
its `ID` value, its true label `y`, and the remaining columns of the
forecast frame as an ordered association list. -/
structure Row where
  id : String
  y : ℚ
  cols : List (Col × ℚ)
deriving DecidableEq

/-- Reading a column of a row (`df_i[c]` on the modelled columns). -/
def lookupCol : List (Col × ℚ) → Col → Option ℚ
  | [], _ => Option.none
  | (c, v) :: rest, c' => if c = c' then some v else lookupCol rest c'

/-- Model of `df.rename(columns={old: new})`: relabel every occurrence of
`old`, keeping positions and values. -/
def renameCol (old new : Col) (cols : List (Col × ℚ)) : List (Col × ℚ) :=
  cols.map (fun p => (if p.1 = old then new else p.1, p.2))

/-- Model of pandas column assignment `df[c] = v`: overwrite the column in
place when present, otherwise append it on the right. -/
def setCol (c : Col) (v : ℚ) (cols : List (Col × ℚ)) : List (Col × ℚ) :=
  if cols.any (fun p => decide (p.1 = c)) then
    cols.map (fun p => if p.1 = c then (c, v) else p)
  else cols ++ [(c, v)]

/-- Model of `numpy.float64.round`: round half to even (numpy's default
tie-breaking rule). -/
def roundHalfEven (q : ℚ) : ℤ :=
  if q - ⌊q⌋ < 1/2 then ⌊q⌋
  else if 1/2 < q - ⌊q⌋ then ⌊q⌋ + 1
  else if ⌊q⌋ % 2 = 0 then ⌊q⌋ else ⌊q⌋ + 1

/-- One iteration of the inner loop of `predict` for horizon step `i+1`
(`i` is the 0-based loop index) on group `gid`: rename `yhat{i+1}` to
`yhat_raw{i+1}`, set `yhat{i+1}` to the rounded raw forecast, set
`residual{i+1}` to raw forecast minus `y`, and stamp the `ID` column with
the group name.  When the column is absent Python would raise `KeyError`;
frames produced by `super().predict` always carry it. -/
def stepRow (gid : String) (i : ℕ) (r : Row) : Row :=
  let cols := renameCol (.yhat (i + 1)) (.yhat_raw (i + 1)) r.cols
  match lookupCol cols (.yhat_raw (i + 1)) with
  | some raw =>
      let cols := setCol (.yhat (i + 1)) ((roundHalfEven raw : ℤ) : ℚ) cols
      let cols := setCol (.residual (i + 1)) (raw - r.y) cols
      { id := gid, y := r.y, cols := cols }
  | Option.none => { id := gid, y := r.y, cols := cols }

/-- The group frame after the first `k` iterations of the inner loop. -/
def stepsUpTo (gid : String) : ℕ → Row → Row
  | 0, r => r
  | k + 1, r => stepRow gid k (stepsUpTo gid k r)

/-- Rows a single group contributes to `df_pred`.  The `pd.concat` sits
inside the horizon loop, so the group frame is appended once per horizon
iteration, processed up to that iteration. -/
def groupContribution (gid : String) (n_forecasts : ℕ) (rows : List Row) : List Row :=
  (List.range n_forecasts).flatMap (fun k => rows.map (stepsUpTo gid (k + 1)))

/-- Insertion of a string into a `strLe`-sorted list. -/
def insertSorted (x : String) : List String → List String
  | [] => [x]
  | y :: ys => if strLe x y then x :: y :: ys else y :: insertSorted x ys

/-- Sorting a list of strings in ascending `strLe` order. -/
def sortStrings (l : List String) : List String := l.foldr insertSorted []

/-- Distinct elements of a list in first-occurrence order, skipping the
ones already in `seen`. -/
def firstSeenAux (seen : List String) : List String → List String
  | [] => []
  | x :: xs => if x ∈ seen then firstSeenAux seen xs else x :: firstSeenAux (x :: seen) xs

/-- Distinct elements of a list in first-occurrence order. -/
def firstSeen (l : List String) : List String := firstSeenAux [] l

/-- The group keys of `df.groupby("ID")` in iteration order: pandas
iterates the distinct keys in ascending sorted order (default
`sort=True`). -/
def groupbyIds (df : List Row) : List String := sortStrings (firstSeen (df.map Row.id))

/-- Model of the post-processing of `Classification_NP.predict` between
`prep_or_copy_df` and `return_df_in_original_format`: loop over the
groups of `df.groupby("ID")`, and inside the horizon loop append the
partially processed group frame to `df_pred`.  The delegated
`super().predict` and the two shape utilities are external collaborators;
`df` here is the canonical multi-series frame. -/
def predict_post (n_forecasts : ℕ) (df : List Row) : List Row :=
  (groupbyIds df).flatMap
    (fun gid => groupContribution gid n_forecasts (df.filter (fun r => decide (r.id = gid))))

/-- Columns of a row as produced by `super().predict`: one raw forecast
column `yhat{j+1}` per horizon step, holding value `v j`. -/
def initCols (n : ℕ) (v : ℕ → ℚ) : List (Col × ℚ) :=
  (List.range n).map (fun j => (Col.yhat (j + 1), v j))

/-- Closed form of the columns of a row after `k` iterations of the inner
loop of `predict`, starting from `initCols n v` with label `y`: the first
`k` forecast columns renamed to their raw variant in place, the untouched
tail of raw forecast columns, then the appended rounded and residual
columns, interleaved per iteration. -/
def colsAfter (n k : ℕ) (v : ℕ → ℚ) (y : ℚ) : List (Col × ℚ) :=
  ((List.range k).map (fun j => (Col.yhat_raw (j + 1), v j)))
  ++ ((List.range (n - k)).map (fun j => (Col.yhat (k + j + 1), v (k + j))))
  ++ ((List.range k).flatMap (fun j =>
        [(Col.yhat (j + 1), ((roundHalfEven (v j) : ℤ) : ℚ)),
         (Col.residual (j + 1), v j - y)]))

theorem charListLe_total (as bs : List Char) : charListLe as bs = true ∨ charListLe bs as = true := by
  induction as generalizing bs with
  | nil => exact Or.inl rfl
  | cons a as ih =>
    cases bs with
    | nil => exact Or.inr rfl
    | cons b bs =>
      rcases lt_trichotomy a b with h | h | h
      · left
        simp [charListLe, h]
      · subst h
        rcases ih bs with h' | h' <;> [left; right] <;> simp [charListLe, h']
      · right
        simp [charListLe, h]

theorem charListLe_trans (as bs cs : List Char) (h1 : charListLe as bs = true)
    (h2 : charListLe bs cs = true) : charListLe as cs = true := by
  induction as generalizing bs cs with
  | nil => rfl
  | cons a as ih =>
    cases bs with
    | nil => simp [charListLe] at h1
    | cons b bs =>
      cases cs with
      | nil => simp [charListLe] at h2
      | cons c cs =>
        by_cases hab : a < b
        · by_cases hbc : b < c
          · simp [charListLe, lt_trans hab hbc]
          · by_cases hcb : c < b
            · simp [charListLe, hbc, hcb] at h2
            · have hbceq : b = c := le_antisymm (le_of_not_lt hcb) (le_of_not_lt hbc)
              subst hbceq
              simp [charListLe, hab]
        · by_cases hba : b < a
          · simp [charListLe, hab, hba] at h1
          · have habeq : a = b := le_antisymm (le_of_not_lt hba) (le_of_not_lt hab)
            subst habeq
            simp only [charListLe, lt_irrefl, if_false] at h1
            by_cases hac : a < c
            · simp [charListLe, hac]
            · by_cases hca : c < a
              · simp [charListLe, hac, hca] at h2
              · simp only [charListLe, hac, hca, if_false]
                exact ih bs cs h1 (by simpa [charListLe, hac, hca] using h2)

theorem strLe_total (a b : String) : strLe a b = true ∨ strLe b a = true :=
  charListLe_total a.data b.data

theorem strLe_trans (a b c : String) (h1 : strLe a b = true) (h2 : strLe b c = true) :
    strLe a c = true :=
  charListLe_trans a.data b.data c.data h1 h2

theorem mem_insertSorted (x a : String) (l : List String) :
    x ∈ insertSorted a l ↔ x = a ∨ x ∈ l := by
  induction l with
  | nil => simp [insertSorted]
  | cons y ys ih =>
    by_cases h : strLe a y = true
    · simp [insertSorted, h]
    · rw [insertSorted, if_neg h]
      simp only [List.mem_cons, ih]
      tauto

theorem perm_insertSorted (a : String) (l : List String) :
    List.Perm (insertSorted a l) (a :: l) := by
  induction l with
  | nil => rfl
  | cons y ys ih =>
    by_cases h : strLe a y = true
    · rw [insertSorted, if_pos h]
    · rw [insertSorted, if_neg h]
      exact (ih.cons y).trans (List.Perm.swap a y ys)

theorem perm_sortStrings (l : List String) : List.Perm (sortStrings l) l := by
  induction l with
  | nil => rfl
  | cons a l ih => exact (perm_insertSorted a (sortStrings l)).trans (ih.cons a)

theorem mem_sortStrings (x : String) (l : List String) : x ∈ sortStrings l ↔ x ∈ l :=
  (perm_sortStrings l).mem_iff

theorem pairwise_insertSorted (a : String) (l : List String)
    (h : l.Pairwise (fun x y => strLe x y = true)) :
    (insertSorted a l).Pairwise (fun x y => strLe x y = true) := by
  induction l with
  | nil => simp [insertSorted]
  | cons y ys ih =>
    rcases List.pairwise_cons.mp h with ⟨hy, hys⟩
    by_cases hay : strLe a y = true
    · rw [insertSorted, if_pos hay]
      refine List.pairwise_cons.mpr ⟨?_, h⟩
      intro z hz
      rcases List.mem_cons.mp hz with rfl | hz
      · exact hay
      · exact strLe_trans a y z hay (hy z hz)
    · have hya : strLe y a = true := (strLe_total a y).resolve_left hay
      rw [insertSorted, if_neg hay]
      refine List.pairwise_cons.mpr ⟨?_, ih hys⟩
      intro z hz
      rcases (mem_insertSorted z a ys).mp hz with rfl | hz
      · exact hya
      · exact hy z hz

theorem pairwise_sortStrings (l : List String) :
    (sortStrings l).Pairwise (fun x y => strLe x y = true) := by
  induction l with
  | nil => exact List.Pairwise.nil
  | cons a l ih => exact pairwise_insertSorted a (sortStrings l) ih

theorem mem_firstSeenAux (x : String) (seen l : List String) :
    x ∈ firstSeenAux seen l ↔ x ∈ l ∧ x ∉ seen := by
  induction l generalizing seen with
  | nil => simp [firstSeenAux]
  | cons a l ih =>
    by_cases ha : a ∈ seen
    · simp only [firstSeenAux, ha, if_true, ih, List.mem_cons]
      constructor
      · exact fun ⟨h1, h2⟩ => ⟨Or.inr h1, h2⟩
      · rintro ⟨rfl | h1, h2⟩
        · exact absurd ha h2
        · exact ⟨h1, h2⟩
    · simp only [firstSeenAux, ha, if_false, List.mem_cons, ih, List.mem_cons]
      constructor
      · rintro (rfl | ⟨h1, h2⟩)
        · exact ⟨Or.inl rfl, ha⟩
        · exact ⟨Or.inr h1, fun hx => h2 (Or.inr hx)⟩
      · rintro ⟨rfl | h1, h2⟩
        · exact Or.inl rfl
        · by_cases hxa : x = a
          · exact Or.inl hxa
          · exact Or.inr ⟨h1, fun hx => (by
              rcases hx with hx | hx
              · exact hxa hx
              · exact h2 hx)⟩

theorem mem_firstSeen (x : String) (l : List String) : x ∈ firstSeen l ↔ x ∈ l := by
  unfold firstSeen
  rw [mem_firstSeenAux]
  simp

theorem nodup_firstSeenAux (seen l : List String) : (firstSeenAux seen l).Nodup := by
  induction l generalizing seen with
  | nil => exact List.Pairwise.nil
  | cons a l ih =>
    by_cases ha : a ∈ seen
    · simpa [firstSeenAux, ha] using ih seen
    · rw [firstSeenAux, if_neg ha, List.nodup_cons]
      refine ⟨fun hmem => ?_, ih (a :: seen)⟩
      exact ((mem_firstSeenAux a (a :: seen) l).mp hmem).2 (List.mem_cons_self a seen)

theorem nodup_groupbyIds (df : List Row) : (groupbyIds df).Nodup :=
  ((perm_sortStrings (firstSeen (df.map Row.id))).nodup_iff).mpr
    (nodup_firstSeenAux [] (df.map Row.id))

theorem mem_groupbyIds (x : String) (df : List Row) :
    x ∈ groupbyIds df ↔ x ∈ df.map Row.id := by
  unfold groupbyIds
  rw [mem_sortStrings, mem_firstSeen]

theorem stepRow_id (gid : String) (i : ℕ) (r : Row) : (stepRow gid i r).id = gid := by
  cases h : lookupCol (renameCol (Col.yhat (i + 1)) (Col.yhat_raw (i + 1)) r.cols)
    (Col.yhat_raw (i + 1)) <;> simp [stepRow, h]

theorem stepRow_y (gid : String) (i : ℕ) (r : Row) : (stepRow gid i r).y = r.y := by
  cases h : lookupCol (renameCol (Col.yhat (i + 1)) (Col.yhat_raw (i + 1)) r.cols)
    (Col.yhat_raw (i + 1)) <;> simp [stepRow, h]

theorem stepsUpTo_id (gid : String) (k : ℕ) (hk : 0 < k) (r : Row) :
    (stepsUpTo gid k r).id = gid := by
  cases k with
  | zero => omega
  | succ m => exact stepRow_id gid m _

theorem stepsUpTo_y (gid : String) (k : ℕ) (r : Row) : (stepsUpTo gid k r).y = r.y := by
  induction k with
  | zero => rfl
  | succ m ih => rw [stepsUpTo, stepRow_y, ih]

theorem groupContribution_id (gid : String) (n : ℕ) (rows : List Row) (r : Row)
    (h : r ∈ groupContribution gid n rows) : r.id = gid := by
  rcases List.mem_flatMap.mp h with ⟨k, _, hr⟩
  rcases List.mem_map.mp hr with ⟨r0, _, rfl⟩
  exact stepsUpTo_id gid (k + 1) (Nat.succ_pos k) r0

theorem length_groupContribution (gid : String) (n : ℕ) (rows : List Row) :
    (groupContribution gid n rows).length = n * rows.length := by
  unfold groupContribution
  rw [List.length_flatMap]
  have hconst : List.map (List.length ∘ fun k => rows.map (stepsUpTo gid (k + 1)))
      (List.range n) = List.replicate n rows.length := by
    rw [show (List.length ∘ fun k => rows.map (stepsUpTo gid (k + 1)))
        = Function.const ℕ rows.length from funext (fun k => by simp)]
    rw [List.map_const, List.length_range]
  rw [hconst, List.sum_replicate, smul_eq_mul]

theorem flatMap_eq_nil_of_forall {α β : Type} (s : List α) (F : α → List β)
    (h : ∀ g ∈ s, F g = []) : s.flatMap F = [] := by
  induction s with
  | nil => rfl
  | cons a s ih =>
    rw [List.flatMap_cons, h a (List.mem_cons_self a s), List.nil_append]
    exact ih (fun g hg => h g (List.mem_cons_of_mem a hg))

theorem flatMap_eq_single {α β : Type} [DecidableEq α] (s : List α) (F : α → List β) (g₀ : α)
    (hnd : s.Nodup) (hg : g₀ ∈ s) (h : ∀ g ∈ s, g ≠ g₀ → F g = []) : s.flatMap F = F g₀ := by
  induction s with
  | nil => cases hg
  | cons a s ih =>
    rcases List.nodup_cons.mp hnd with ⟨ha, hnds⟩
    rw [List.flatMap_cons]
    rcases List.mem_cons.mp hg with rfl | hg'
    · rw [flatMap_eq_nil_of_forall s F
        (fun g hgs => h g (List.mem_cons_of_mem g₀ hgs) (fun he => ha (he ▸ hgs))),
        List.append_nil]
    · rw [h a (List.mem_cons_self a s) (fun he => ha (he ▸ hg')), List.nil_append]
      exact ih hnds hg' (fun g hgs => h g (List.mem_cons_of_mem a hgs))

theorem firstSeenAux_skip (seen t l : List String) (h : ∀ x ∈ t, x ∈ seen) :
    firstSeenAux seen (t ++ l) = firstSeenAux seen l := by
  induction t with
  | nil => rfl
  | cons x t ih =>
    rw [List.cons_append, firstSeenAux, if_pos (h x (List.mem_cons_self x t))]
    exact ih (fun z hz => h z (List.mem_cons_of_mem x hz))

theorem firstSeenAux_blocks (s : List String) (F : String → List String) :
    ∀ seen : List String, s.Nodup → (∀ g ∈ s, F g ≠ []) → (∀ g ∈ s, ∀ x ∈ F g, x = g) →
    (∀ g ∈ s, g ∉ seen) → firstSeenAux seen (s.flatMap F) = s := by
  induction s with
  | nil => intros; rfl
  | cons g s ih =>
    intro seen hnd hne hall hseen
    rcases List.nodup_cons.mp hnd with ⟨hgs, hnds⟩
    rw [List.flatMap_cons]
    obtain ⟨x, t, hFg⟩ : ∃ x t, F g = x :: t := by
      cases hF : F g with
      | nil => exact absurd hF (hne g (List.mem_cons_self g s))
      | cons x t => exact ⟨x, t, rfl⟩
    have hx : x = g := hall g (List.mem_cons_self g s) x (by rw [hFg]; exact List.mem_cons_self x t)
    rw [hFg, hx, List.cons_append, firstSeenAux, if_neg (hseen g (List.mem_cons_self g s))]
    have ht : ∀ z ∈ t, z ∈ g :: seen := by
      intro z hz
      have hz' : z = g := hall g (List.mem_cons_self g s) z
        (by rw [hFg]; exact List.mem_cons_of_mem x hz)
      rw [hz']
      exact List.mem_cons_self g seen
    rw [firstSeenAux_skip (g :: seen) t _ ht]
    have hrest : firstSeenAux (g :: seen) (s.flatMap F) = s := by
      refine ih (g :: seen) hnds (fun g' hg' => hne g' (List.mem_cons_of_mem g hg'))
        (fun g' hg' => hall g' (List.mem_cons_of_mem g hg')) ?_
      intro g' hg'
      rw [List.mem_cons]
      rintro (rfl | hmem)
      · exact hgs hg'
      · exact hseen g' (List.mem_cons_of_mem g hg') hmem
    rw [hrest]

/-- Concrete argument tuple used by the fit examples. -/
def fitCall0 : FitCall := ⟨"df", "auto", Option.none, "bar", false⟩

/-- C1, counterexample.  With `collect_metrics=None` (and likewise `[]`)
the attribute is not left unset: `None` is first replaced by `[]`, which
is a list, so a `MetricsCollection` holding the loss metric and the
"Loss" value tracker is built and assigned. -/
theorem init_none_unset_cex :
    (init "bce" PyVal.none = Except.ok
      { classification_task := true, name := "NeuralProphetBinaryClassifier",
        config_train := ⟨"bce"⟩,
        metrics := some ⟨[Metric.LossMetric "bce"], [⟨"Loss"⟩]⟩ })
    ∧ (init "bce" (PyVal.list []) = Except.ok
      { classification_task := true, name := "NeuralProphetBinaryClassifier",
        config_train := ⟨"bce"⟩,
        metrics := some ⟨[Metric.LossMetric "bce"], [⟨"Loss"⟩]⟩ })
    ∧ some (⟨[Metric.LossMetric "bce"], [⟨"Loss"⟩]⟩ : MetricsCollection) ≠ Option.none :=
  ⟨rfl, rfl, by simp⟩

/-- C1, amended.  For `collect_metrics` equal to `None` or the empty list,
construction succeeds and the metrics collection attribute is not unset:
it is set to a collection containing exactly the loss metric bound to the
configured loss function and the "Loss" value tracker, and no named
metric objects.  Only `collect_metrics=False` leaves the attribute
unset. -/
theorem init_none_empty_builds_loss_only_collection (lf : String) :
    (init lf PyVal.none = Except.ok
      { classification_task := true, name := "NeuralProphetBinaryClassifier",
        config_train := ⟨lf⟩,
        metrics := some ⟨[Metric.LossMetric lf], [⟨"Loss"⟩]⟩ })
    ∧ (init lf (PyVal.list []) = Except.ok
      { classification_task := true, name := "NeuralProphetBinaryClassifier",
        config_train := ⟨lf⟩,
        metrics := some ⟨[Metric.LossMetric lf], [⟨"Loss"⟩]⟩ }) :=
  ⟨rfl, rfl⟩

/-- C5.  Construction raises the configuration error (so no instance is
produced) for an unsupported single string, for a list containing any
unsupported entry, and for a value of a type other than `None`, `bool`,
`str` or `list`, such as an integer. -/
theorem init_rejects_invalid_collect_metrics (lf s : String) (l : List String)
    (m : String) (n : ℤ) (hs : pyLower s ∉ METRICS_keys) (hm : m ∈ l)
    (hmbad : pyLower m ∉ METRICS_keys) :
    init lf (PyVal.str s) = Except.error "Received unsupported argument for collect_metrics."
    ∧ init lf (PyVal.list l) = Except.error "Received unsupported argument for collect_metrics."
    ∧ init lf (PyVal.int n) = Except.error "Received unsupported argument for collect_metrics." := by
  refine ⟨?_, ?_, rfl⟩
  · simp [init, resolveCollect, hs]
  · have hall : l.all (fun m => decide (pyLower m ∈ METRICS_keys)) = false := by
      rw [List.all_eq_false]
      exact ⟨m, hm, by simpa using hmbad⟩
    simp [init, resolveCollect, hall]

/-- C5, witness at `collect_metrics = "xyz"`, `["acc", "xyz"]` and `42`. -/
theorem init_rejects_invalid_collect_metrics_witness :
    (pyLower "xyz" ∉ METRICS_keys) ∧ ("xyz" ∈ ["acc", "xyz"]) ∧ (pyLower "xyz" ∉ METRICS_keys)
    ∧ (init "bce" (PyVal.str "xyz")
        = Except.error "Received unsupported argument for collect_metrics."
      ∧ init "bce" (PyVal.list ["acc", "xyz"])
        = Except.error "Received unsupported argument for collect_metrics."
      ∧ init "bce" (PyVal.int 42)
        = Except.error "Received unsupported argument for collect_metrics.") :=
  ⟨by decide, by decide, by decide,
    init_rejects_invalid_collect_metrics "bce" "xyz" ["acc", "xyz"] "xyz" 42
      (by decide) (by decide) (by decide)⟩

/-- C6.  For `collect_metrics=True` the resolved metric names are exactly
`acc`, `bal_acc`, `f1`, so the collection holds the loss metric, the
three metric objects and the "Loss" tracker; for `collect_metrics=False`
no metrics are tracked and the attribute is left unset. -/
theorem init_bool_collect_metrics (lf : String) :
    (init lf (PyVal.bool true) = Except.ok
      { classification_task := true, name := "NeuralProphetBinaryClassifier",
        config_train := ⟨lf⟩,
        metrics := some ⟨[Metric.LossMetric lf, Metric.Accuracy, Metric.Balanced_Accuracy,
          Metric.F1Score], [⟨"Loss"⟩]⟩ })
    ∧ (init lf (PyVal.bool false) = Except.ok
      { classification_task := true, name := "NeuralProphetBinaryClassifier",
        config_train := ⟨lf⟩, metrics := Option.none }) :=
  ⟨rfl, rfl⟩

/-- C7.  For every supported single metric name and every list of
supported names (validated case-insensitively), construction succeeds and
the collection contains exactly one loss metric bound to the configured
loss function, one metric object per requested name (looked up by the
lower-cased name), and one "Loss" value tracker. -/
theorem init_supported_collect_metrics (lf s : String) (l : List String)
    (hs : pyLower s ∈ METRICS_keys) (hl : ∀ m ∈ l, pyLower m ∈ METRICS_keys) :
    init lf (PyVal.str s) = Except.ok
      { classification_task := true, name := "NeuralProphetBinaryClassifier",
        config_train := ⟨lf⟩,
        metrics := some ⟨[Metric.LossMetric lf, METRICS_at (pyLower s)], [⟨"Loss"⟩]⟩ }
    ∧ init lf (PyVal.list l) = Except.ok
      { classification_task := true, name := "NeuralProphetBinaryClassifier",
        config_train := ⟨lf⟩,
        metrics := some ⟨Metric.LossMetric lf :: l.map (fun m => METRICS_at (pyLower m)),
          [⟨"Loss"⟩]⟩ } := by
  have hall : l.all (fun m => decide (pyLower m ∈ METRICS_keys)) = true := by
    rw [List.all_eq_true]
    intro m hm
    simpa using hl m hm
  exact ⟨by simp [init, resolveCollect, hs, buildCollection],
    by simp [init, resolveCollect, hall, buildCollection]⟩

/-- C7, witness at the mixed-case name `"ACC"` and list `["Bal_Acc", "f1"]`. -/
theorem init_supported_collect_metrics_witness :
    (pyLower "ACC" ∈ METRICS_keys) ∧ (∀ m ∈ ["Bal_Acc", "f1"], pyLower m ∈ METRICS_keys)
    ∧ (init "bce" (PyVal.str "ACC") = Except.ok
        { classification_task := true, name := "NeuralProphetBinaryClassifier",
          config_train := ⟨"bce"⟩,
          metrics := some ⟨[Metric.LossMetric "bce", METRICS_at (pyLower "ACC")], [⟨"Loss"⟩]⟩ }
      ∧ init "bce" (PyVal.list ["Bal_Acc", "f1"]) = Except.ok
        { classification_task := true, name := "NeuralProphetBinaryClassifier",
          config_train := ⟨"bce"⟩,
          metrics := some ⟨Metric.LossMetric "bce"
            :: ["Bal_Acc", "f1"].map (fun m => METRICS_at (pyLower m)), [⟨"Loss"⟩]⟩ }) :=
  ⟨by decide, by decide,
    init_supported_collect_metrics "bce" "ACC" ["Bal_Acc", "f1"] (by decide) (by decide)⟩

/-- C10.  Every successful construction with loss identifier `lf` yields
an instance whose resolved train configuration carries `lf` as its
loss-function value and whose classification flag is true. -/
theorem init_overrides_loss_and_flag (lf : String) (cm : PyVal) (c : Classifier)
    (h : init lf cm = Except.ok c) :
    c.config_train.loss_func = lf ∧ c.classification_task = true := by
  unfold init at h
  cases hr : resolveCollect cm <;> rw [hr] at h
  · exact absurd h (by simp)
  · cases Except.ok.inj h
    exact ⟨rfl, rfl⟩

/-- Classifier instance produced by `init "bce" (PyVal.bool false)`. -/
def classifierBceFalse : Classifier :=
  { classification_task := true, name := "NeuralProphetBinaryClassifier",
    config_train := ⟨"bce"⟩, metrics := Option.none }

/-- C10, witness at `loss_func="bce"`, `collect_metrics=False`. -/
theorem init_overrides_loss_and_flag_witness :
    (init "bce" (PyVal.bool false) = Except.ok classifierBceFalse)
    ∧ (classifierBceFalse.config_train.loss_func = "bce"
      ∧ classifierBceFalse.classification_task = true) :=
  ⟨rfl, init_overrides_loss_and_flag "bce" (PyVal.bool false) classifierBceFalse rfl⟩

/-- C3.  When the configured loss-function name does not match `bce` or
`bceloss` case-insensitively, `fit` produces the not-implemented error
naming that loss function, whatever the delegate would have returned:
the delegated trainer is never invoked, so no training state changes. -/
theorem fit_rejects_unsupported_loss {α : Type} (superFit : FitCall → α)
    (config_covar : Option (List ℕ)) (n_lags : ℕ) (loss_func_name : String) (c : FitCall)
    (h : pyLower loss_func_name ∉ ["bce", "bceloss"]) :
    (fit superFit config_covar n_lags loss_func_name c).result
      = Except.error ("Currently NeuralProphet Classification module does not support "
          ++ loss_func_name ++ " loss function. Please, set loss function to 'bce' ") := by
  simp [fit, h]

/-- C3, witness at loss name `"mse"`. -/
theorem fit_rejects_unsupported_loss_witness :
    (pyLower "mse" ∉ (["bce", "bceloss"] : List String))
    ∧ (fit (fun _ => (0 : ℕ)) Option.none 0 "mse" fitCall0).result
      = Except.error ("Currently NeuralProphet Classification module does not support "
          ++ "mse" ++ " loss function. Please, set loss function to 'bce' ") :=
  ⟨by decide, fit_rejects_unsupported_loss (fun _ => (0 : ℕ)) Option.none 0 "mse" fitCall0
    (by decide)⟩

/-- C9, counterexample.  A call with `n_lags=1` (so the warning condition
holds) but loss name `"mse"` does not delegate: `fit` raises instead, so
the claim that every such call still reaches the wrapped trainer is
false. -/
theorem fit_warning_raises_cex :
    (0 < 1 ∨ get_max_num_lags Option.none 1 = 0)
    ∧ (fit (fun _ => (0 : ℕ)) Option.none 1 "mse" fitCall0).result
      = Except.error ("Currently NeuralProphet Classification module does not support "
          ++ "mse" ++ " loss function. Please, set loss function to 'bce' ")
    ∧ (fit (fun _ => (0 : ℕ)) Option.none 1 "mse" fitCall0).result
      ≠ Except.ok ((fun _ => (0 : ℕ)) fitCall0) := by
  refine ⟨Or.inl (by decide), rfl, ?_⟩
  rw [show (fit (fun _ => (0 : ℕ)) Option.none 1 "mse" fitCall0).result
    = Except.error ("Currently NeuralProphet Classification module does not support "
        ++ "mse" ++ " loss function. Please, set loss function to 'bce' ") from rfl]
  exact fun hx => Except.noConfusion hx

/-- C9, amended.  Provided the configured loss-function name matches
`bce`/`bceloss` case-insensitively, a call with positive autoregression
order, or with maximum lag window zero, only logs a warning: the warning
list is non-empty and `fit` still delegates to the wrapped trainer with
the same arguments, returning its result unchanged. -/
theorem fit_warns_and_delegates {α : Type} (superFit : FitCall → α)
    (config_covar : Option (List ℕ)) (n_lags : ℕ) (loss_func_name : String) (c : FitCall)
    (hloss : pyLower loss_func_name ∈ ["bce", "bceloss"])
    (hwarn : 0 < n_lags ∨ get_max_num_lags config_covar n_lags = 0) :
    (fit superFit config_covar n_lags loss_func_name c).warnings ≠ []
    ∧ (fit superFit config_covar n_lags loss_func_name c).result
      = Except.ok (superFit c) := by
  constructor
  · rcases hwarn with h | h
    · simp [fit, hloss, h]
    · simp only [fit, hloss, h, if_pos, if_true]
      intro hx
      exact List.cons_ne_nil _ _ (List.append_eq_nil.mp hx).2
  · simp [fit, hloss]

/-- C9, witness at `n_lags=1`, loss name `"bce"`. -/
theorem fit_warns_and_delegates_witness :
    (pyLower "bce" ∈ (["bce", "bceloss"] : List String))
    ∧ (0 < 1 ∨ get_max_num_lags Option.none 1 = 0)
    ∧ ((fit (fun _ => (7 : ℕ)) Option.none 1 "bce" fitCall0).warnings ≠ []
      ∧ (fit (fun _ => (7 : ℕ)) Option.none 1 "bce" fitCall0).result
        = Except.ok ((fun _ => (7 : ℕ)) fitCall0)) :=
  ⟨by decide, Or.inl (by decide),
    fit_warns_and_delegates (fun _ => (7 : ℕ)) Option.none 1 "bce" fitCall0
      (by decide) (Or.inl (by decide))⟩

theorem lookupCol_eq_none (l : List (Col × ℚ)) (c : Col) (h : ∀ p ∈ l, p.1 ≠ c) :
    lookupCol l c = Option.none := by
  induction l with
  | nil => rfl
  | cons p rest ih =>
    obtain ⟨c0, v0⟩ := p
    rw [lookupCol, if_neg (h (c0, v0) (List.mem_cons_self _ _))]
    exact ih (fun q hq => h q (List.mem_cons_of_mem _ hq))

theorem lookupCol_append_left (a b : List (Col × ℚ)) (c : Col) (u : ℚ)
    (h : lookupCol a c = some u) : lookupCol (a ++ b) c = some u := by
  induction a with
  | nil => cases h
  | cons p rest ih =>
    obtain ⟨c0, v0⟩ := p
    rw [List.cons_append, lookupCol]
    rw [lookupCol] at h
    by_cases hc : c0 = c
    · rwa [if_pos hc] at h ⊢
    · rw [if_neg hc] at h ⊢
      exact ih h

theorem lookupCol_append_right (a b : List (Col × ℚ)) (c : Col) (h : ∀ p ∈ a, p.1 ≠ c) :
    lookupCol (a ++ b) c = lookupCol b c := by
  induction a with
  | nil => rfl
  | cons p rest ih =>
    obtain ⟨c0, v0⟩ := p
    rw [List.cons_append, lookupCol, if_neg (h (c0, v0) (List.mem_cons_self _ _))]
    exact ih (fun q hq => h q (List.mem_cons_of_mem _ hq))

theorem setCol_of_not_mem (l : List (Col × ℚ)) (c : Col) (v : ℚ) (h : ∀ p ∈ l, p.1 ≠ c) :
    setCol c v l = l ++ [(c, v)] := by
  unfold setCol
  rw [if_neg]
  rw [Bool.not_eq_true, List.any_eq_false]
  intro p hp
  simpa using h p hp

theorem lookupCol_range_map (g : ℕ → Col) (w : ℕ → ℚ) :
    ∀ n, (∀ x z, g x = g z → x = z) → ∀ i, i < n →
      lookupCol ((List.range n).map (fun j => (g j, w j))) (g i) = some (w i) := by
  intro n
  induction n generalizing g w with
  | zero => intro _ i hi; omega
  | succ m ih =>
    intro hg i hi
    rw [List.range_succ_eq_map, List.map_cons, List.map_map]
    cases i with
    | zero => rw [lookupCol, if_pos rfl]
    | succ i' =>
      have hne : ¬ (g 0 = g (i' + 1)) := fun h => by have := hg 0 (i' + 1) h; omega
      rw [lookupCol, if_neg hne]
      exact ih (fun j => g (j + 1)) (fun j => w (j + 1))
        (fun x z h => by have := hg (x + 1) (z + 1) h; omega) i' (by omega)

theorem lookupCol_flatMap_two (g h : ℕ → Col) (a b : ℕ → ℚ) :
    ∀ k, (∀ x z, g x = g z → x = z) → (∀ x z, h x ≠ g z) → ∀ i, i < k →
      lookupCol ((List.range k).flatMap (fun j => [(g j, a j), (h j, b j)])) (g i)
        = some (a i) := by
  intro k
  induction k generalizing g h a b with
  | zero => intro _ _ i hi; omega
  | succ m ih =>
    intro hg hgh i hi
    rw [List.range_succ_eq_map, List.flatMap_cons, List.flatMap_map]
    cases i with
    | zero =>
      rw [List.cons_append, lookupCol, if_pos rfl]
    | succ i' =>
      have hne1 : ¬ (g 0 = g (i' + 1)) := fun hx => by have := hg 0 (i' + 1) hx; omega
      have hne2 : ¬ (h 0 = g (i' + 1)) := hgh 0 (i' + 1)
      rw [List.cons_append, lookupCol, if_neg hne1, List.cons_append, lookupCol, if_neg hne2,
        List.nil_append]
      exact ih (fun j => g (j + 1)) (fun j => h (j + 1)) (fun j => a (j + 1))
        (fun j => b (j + 1)) (fun x z hx => by have := hg (x + 1) (z + 1) hx; omega)
        (fun x z => hgh (x + 1) (z + 1)) i' (by omega)

theorem flatMap_congr_mem {α β : Type} (l : List α) (f g : α → List β)
    (h : ∀ a ∈ l, f a = g a) : l.flatMap f = l.flatMap g := by
  induction l with
  | nil => rfl
  | cons a l ih =>
    rw [List.flatMap_cons, List.flatMap_cons, h a (List.mem_cons_self a l),
      ih (fun b hb => h b (List.mem_cons_of_mem a hb))]

theorem colsAfter_zero (n : ℕ) (v : ℕ → ℚ) (y : ℚ) : colsAfter n 0 v y = initCols n v := by
  simp [colsAfter, initCols]

theorem stepRow_colsAfter (gid : String) (n k : ℕ) (v : ℕ → ℚ) (y : ℚ) (r : Row)
    (hk : k < n) (hy : r.y = y) (hc : r.cols = colsAfter n k v y) :
    stepRow gid k r = ⟨gid, y, colsAfter n (k + 1) v y⟩ := by
  have hnk : n - k = (n - (k + 1)) + 1 := by omega
  have hB : (List.range (n - k)).map (fun j => (Col.yhat (k + j + 1), v (k + j)))
      = (Col.yhat (k + 1), v k)
        :: (List.range (n - (k + 1))).map (fun j => (Col.yhat (k + j + 2), v (k + j + 1))) := by
    rw [hnk, List.range_succ_eq_map, List.map_cons, List.map_map]
    rfl
  have hre : renameCol (Col.yhat (k + 1)) (Col.yhat_raw (k + 1)) r.cols
      = ((List.range k).map (fun j => (Col.yhat_raw (j + 1), v j)))
        ++ ((Col.yhat_raw (k + 1), v k)
            :: (List.range (n - (k + 1))).map (fun j => (Col.yhat (k + j + 2), v (k + j + 1))))
        ++ ((List.range k).flatMap (fun j =>
            [(Col.yhat (j + 1), ((roundHalfEven (v j) : ℤ) : ℚ)),
             (Col.residual (j + 1), v j - y)])) := by
    rw [hc]
    unfold colsAfter renameCol
    rw [hB, List.map_append, List.map_append, List.map_cons]
    congr 1
    · congr 1
      · rw [List.map_map]
        apply List.map_congr_left
        intro j _
        simp
      · congr 1
        · simp
        · rw [List.map_map]
          apply List.map_congr_left
          intro j _
          have hne : ¬ (Col.yhat (k + j + 2) = Col.yhat (k + 1)) := by
            simp only [Col.yhat.injEq]
            omega
          simp [hne]
    · rw [List.map_flatMap]
      apply flatMap_congr_mem
      intro j hj
      rw [List.mem_range] at hj
      have hne : ¬ (Col.yhat (j + 1) = Col.yhat (k + 1)) := by
        simp only [Col.yhat.injEq]
        omega
      simp [hne]
  have hlook : lookupCol (renameCol (Col.yhat (k + 1)) (Col.yhat_raw (k + 1)) r.cols)
      (Col.yhat_raw (k + 1)) = some (v k) := by
    rw [hre]
    apply lookupCol_append_left
    rw [lookupCol_append_right]
    · rw [lookupCol, if_pos rfl]
    · intro p hp
      rcases List.mem_map.mp hp with ⟨j, hj, rfl⟩
      rw [List.mem_range] at hj
      simp only [ne_eq, Col.yhat_raw.injEq]
      omega
  simp only [stepRow, hlook]
  rw [hy]
  congr 1
  rw [hre]
  have habs1 : ∀ p ∈ ((List.range k).map (fun j => (Col.yhat_raw (j + 1), v j)))
      ++ ((Col.yhat_raw (k + 1), v k)
          :: (List.range (n - (k + 1))).map (fun j => (Col.yhat (k + j + 2), v (k + j + 1))))
      ++ ((List.range k).flatMap (fun j =>
          [(Col.yhat (j + 1), ((roundHalfEven (v j) : ℤ) : ℚ)),
           (Col.residual (j + 1), v j - y)])), p.1 ≠ Col.yhat (k + 1) := by
    intro p hp
    rcases List.mem_append.mp hp with h12 | h3
    · rcases List.mem_append.mp h12 with h1 | h2
      · rcases List.mem_map.mp h1 with ⟨j, _, rfl⟩
        simp
      · rcases List.mem_cons.mp h2 with rfl | h2'
        · simp
        · rcases List.mem_map.mp h2' with ⟨j, _, rfl⟩
          simp only [ne_eq, Col.yhat.injEq]
          omega
    · rcases List.mem_flatMap.mp h3 with ⟨j, hj, hpj⟩
      rw [List.mem_range] at hj
      rcases List.mem_cons.mp hpj with rfl | hpj'
      · simp only [ne_eq, Col.yhat.injEq]
        omega
      · rcases List.mem_singleton.mp hpj' with rfl
        simp
  rw [setCol_of_not_mem _ _ _ habs1]
  have habs2 : ∀ p ∈ (((List.range k).map (fun j => (Col.yhat_raw (j + 1), v j)))
      ++ ((Col.yhat_raw (k + 1), v k)
          :: (List.range (n - (k + 1))).map (fun j => (Col.yhat (k + j + 2), v (k + j + 1))))
      ++ ((List.range k).flatMap (fun j =>
          [(Col.yhat (j + 1), ((roundHalfEven (v j) : ℤ) : ℚ)),
           (Col.residual (j + 1), v j - y)])))
      ++ [(Col.yhat (k + 1), ((roundHalfEven (v k) : ℤ) : ℚ))], p.1 ≠ Col.residual (k + 1) := by
    intro p hp
    rcases List.mem_append.mp hp with hp' | hlast
    · rcases List.mem_append.mp hp' with h12 | h3
      · rcases List.mem_append.mp h12 with h1 | h2
        · rcases List.mem_map.mp h1 with ⟨j, _, rfl⟩
          simp
        · rcases List.mem_cons.mp h2 with rfl | h2'
          · simp
          · rcases List.mem_map.mp h2' with ⟨j, _, rfl⟩
            simp
      · rcases List.mem_flatMap.mp h3 with ⟨j, hj, hpj⟩
        rw [List.mem_range] at hj
        rcases List.mem_cons.mp hpj with rfl | hpj'
        · simp
        · rcases List.mem_singleton.mp hpj' with rfl
          simp only [ne_eq, Col.residual.injEq]
          omega
    · rcases List.mem_singleton.mp hlast with rfl
      simp
  rw [setCol_of_not_mem _ _ _ habs2]
  unfold colsAfter
  rw [List.range_succ, List.map_append, List.flatMap_append]
  have hBsh : (List.range (n - (k + 1))).map
        (fun j => (Col.yhat (k + 1 + j + 1), v (k + 1 + j)))
      = (List.range (n - (k + 1))).map (fun j => (Col.yhat (k + j + 2), v (k + j + 1))) := by
    apply List.map_congr_left
    intro j _
    have h1 : k + 1 + j + 1 = k + j + 2 := by omega
    have h2 : k + 1 + j = k + j + 1 := by omega
    rw [h1, h2]
  rw [hBsh]
  simp only [List.map_cons, List.map_nil, List.flatMap_cons, List.flatMap_nil,
    List.append_assoc, List.cons_append, List.singleton_append, List.nil_append,
    List.append_nil]


/-- Rows used by the prediction-order counterexample: series "B" appears
before series "A" in the input frame. -/
def rowSeriesB : Row := ⟨"B", 0, [(Col.yhat 1, 9/10)]⟩

/-- Second row of the prediction-order counterexample. -/
def rowSeriesA : Row := ⟨"A", 1, [(Col.yhat 1, 2/10)]⟩

/-- C2, counterexample.  With two series encountered in the order "B",
"A" and one forecast step, the output lists all rows of series "A" before
those of series "B": the series identifiers do not appear in their
original encounter order, because `groupby` iterates keys in sorted
order. -/
theorem predict_encounter_order_cex :
    (predict_post 1 [rowSeriesB, rowSeriesA]).map Row.id = ["A", "B"]
    ∧ firstSeen ([rowSeriesB, rowSeriesA].map Row.id) = ["B", "A"]
    ∧ (["A", "B"] : List String) ≠ ["B", "A"] :=
  ⟨rfl, rfl, by decide⟩

/-- C2, amended.  The output of the predict post-processing groups the
rows by series identifier in ascending sorted identifier order (the
pandas `groupby` default), not in encounter order; within each series the
output consists of `n_forecasts` consecutive copies of the series' rows,
the copy for horizon iteration `k` processed through horizon steps `1` to
`k`, each copy preserving the original row order of that series. -/
theorem predict_order_amended (n : ℕ) (hn : 0 < n) (df : List Row) (gid : String) :
    firstSeen ((predict_post n df).map Row.id) = sortStrings (firstSeen (df.map Row.id))
    ∧ (sortStrings (firstSeen (df.map Row.id))).Pairwise (fun a b => strLe a b = true)
    ∧ (predict_post n df).filter (fun r => decide (r.id = gid))
        = (List.range n).flatMap
            (fun k => (df.filter (fun r => decide (r.id = gid))).map (stepsUpTo gid (k + 1))) := by
  refine ⟨?_, pairwise_sortStrings _, ?_⟩
  · show firstSeen ((predict_post n df).map Row.id) = groupbyIds df
    unfold predict_post
    rw [List.map_flatMap]
    unfold firstSeen
    apply firstSeenAux_blocks _ _ [] (nodup_groupbyIds df)
    · intro g hg
      rcases List.mem_map.mp ((mem_groupbyIds g df).mp hg) with ⟨r, hr, hrid⟩
      have hfil : r ∈ df.filter (fun r => decide (r.id = g)) :=
        List.mem_filter.mpr ⟨hr, by simp [hrid]⟩
      have hlen : 0 < (groupContribution g n (df.filter (fun r => decide (r.id = g)))).length := by
        rw [length_groupContribution]
        exact Nat.mul_pos hn (List.length_pos.mpr (List.ne_nil_of_mem hfil))
      intro hnil
      have hlen2 := congrArg List.length hnil
      simp only [List.length_map, List.length_nil] at hlen2
      omega
    · intro g _ x hx
      rcases List.mem_map.mp hx with ⟨r', hr', rfl⟩
      exact groupContribution_id g n _ r' hr'
    · intro g _
      exact List.not_mem_nil g
  · unfold predict_post
    rw [List.filter_flatMap]
    by_cases hmem : gid ∈ groupbyIds df
    · rw [flatMap_eq_single _ _ gid (nodup_groupbyIds df) hmem ?_]
      · have hall : ∀ r ∈ groupContribution gid n (df.filter (fun r => decide (r.id = gid))),
            (fun r => decide (r.id = gid)) r = true := by
          intro r hr
          simp [groupContribution_id gid n _ r hr]
        rw [List.filter_eq_self.mpr hall]
        rfl
      · intro g hg hne
        apply List.filter_eq_nil_iff.mpr
        intro r hr
        simp [groupContribution_id g n _ r hr, hne]
    · rw [flatMap_eq_nil_of_forall]
      · have hdf : df.filter (fun r => decide (r.id = gid)) = [] := by
          apply List.filter_eq_nil_iff.mpr
          intro r hr
          simp only [decide_eq_true_eq]
          intro hrid
          exact hmem ((mem_groupbyIds gid df).mpr (List.mem_map.mpr ⟨r, hr, hrid⟩))
        rw [hdf]
        exact (flatMap_eq_nil_of_forall _ _ (fun k _ => rfl)).symm
      · intro g hg
        apply List.filter_eq_nil_iff.mpr
        intro r hr
        have hid : r.id = g := groupContribution_id g n _ r hr
        simp only [hid, decide_eq_true_eq]
        exact fun he => hmem (he ▸ hg)

/-- C2, witness at one forecast step, the two-series frame with series
encountered as "B" then "A", and group "A". -/
theorem predict_order_amended_witness :
    0 < 1
    ∧ (firstSeen ((predict_post 1 [rowSeriesB, rowSeriesA]).map Row.id)
        = sortStrings (firstSeen ([rowSeriesB, rowSeriesA].map Row.id))
      ∧ (sortStrings (firstSeen ([rowSeriesB, rowSeriesA].map Row.id))).Pairwise
          (fun a b => strLe a b = true)
      ∧ (predict_post 1 [rowSeriesB, rowSeriesA]).filter (fun r => decide (r.id = "A"))
          = (List.range 1).flatMap
              (fun k => ([rowSeriesB, rowSeriesA].filter
                (fun r => decide (r.id = "A"))).map (stepsUpTo "A" (k + 1)))) :=
  ⟨by decide, predict_order_amended 1 (by decide) [rowSeriesB, rowSeriesA] "A"⟩

theorem stepsUpTo_colsAfter (gid : String) (n k : ℕ) (v : ℕ → ℚ) (y : ℚ) (r : Row)
    (hk : k ≤ n) (hy : r.y = y) (hc : r.cols = initCols n v) :
    (stepsUpTo gid k r).cols = colsAfter n k v y := by
  induction k with
  | zero =>
    rw [colsAfter_zero]
    exact hc
  | succ m ih =>
    have hcols := ih (by omega)
    have hy' : (stepsUpTo gid m r).y = y := by rw [stepsUpTo_y]; exact hy
    rw [stepsUpTo, stepRow_colsAfter gid n m v y _ (by omega) hy' hcols]

theorem lookupCol_flatMap_two_snd (g h : ℕ → Col) (a b : ℕ → ℚ) :
    ∀ k, (∀ x z, h x = h z → x = z) → (∀ x z, g x ≠ h z) → ∀ i, i < k →
      lookupCol ((List.range k).flatMap (fun j => [(g j, a j), (h j, b j)])) (h i)
        = some (b i) := by
  intro k
  induction k generalizing g h a b with
  | zero => intro _ _ i hi; omega
  | succ m ih =>
    intro hh hgh i hi
    rw [List.range_succ_eq_map, List.flatMap_cons, List.flatMap_map]
    cases i with
    | zero =>
      rw [List.cons_append, lookupCol, if_neg (hgh 0 0), List.cons_append, lookupCol,
        if_pos rfl]
    | succ i' =>
      have hne1 : ¬ (g 0 = h (i' + 1)) := hgh 0 (i' + 1)
      have hne2 : ¬ (h 0 = h (i' + 1)) := fun hx => by have := hh 0 (i' + 1) hx; omega
      rw [List.cons_append, lookupCol, if_neg hne1, List.cons_append, lookupCol, if_neg hne2,
        List.nil_append]
      exact ih (fun j => g (j + 1)) (fun j => h (j + 1)) (fun j => a (j + 1))
        (fun j => b (j + 1)) (fun x z hx => by have := hh (x + 1) (z + 1) hx; omega)
        (fun x z => hgh (x + 1) (z + 1)) i' (by omega)

theorem lookupCol_colsAfter_yhat_raw (n k i : ℕ) (v : ℕ → ℚ) (y : ℚ) (hik : i < k) :
    lookupCol (colsAfter n k v y) (Col.yhat_raw (i + 1)) = some (v i) := by
  unfold colsAfter
  apply lookupCol_append_left
  apply lookupCol_append_left
  exact lookupCol_range_map (fun j => Col.yhat_raw (j + 1)) v k
    (fun x z hx => by simp only [Col.yhat_raw.injEq] at hx; omega) i hik

theorem lookupCol_colsAfter_yhat (n k i : ℕ) (v : ℕ → ℚ) (y : ℚ) (hik : i < k) :
    lookupCol (colsAfter n k v y) (Col.yhat (i + 1))
      = some ((roundHalfEven (v i) : ℤ) : ℚ) := by
  unfold colsAfter
  rw [lookupCol_append_right]
  · exact lookupCol_flatMap_two (fun j => Col.yhat (j + 1)) (fun j => Col.residual (j + 1))
      (fun j => ((roundHalfEven (v j) : ℤ) : ℚ)) (fun j => v j - y) k
      (fun x z hx => by simp only [Col.yhat.injEq] at hx; omega)
      (fun x z => by simp) i hik
  · intro p hp
    rcases List.mem_append.mp hp with h1 | h2
    · rcases List.mem_map.mp h1 with ⟨j, _, rfl⟩
      simp
    · rcases List.mem_map.mp h2 with ⟨j, _, rfl⟩
      simp only [ne_eq, Col.yhat.injEq]
      omega

theorem lookupCol_colsAfter_residual (n k i : ℕ) (v : ℕ → ℚ) (y : ℚ) (hik : i < k) :
    lookupCol (colsAfter n k v y) (Col.residual (i + 1)) = some (v i - y) := by
  unfold colsAfter
  rw [lookupCol_append_right]
  · exact lookupCol_flatMap_two_snd (fun j => Col.yhat (j + 1)) (fun j => Col.residual (j + 1))
      (fun j => ((roundHalfEven (v j) : ℤ) : ℚ)) (fun j => v j - y) k
      (fun x z hx => by simp only [Col.residual.injEq] at hx; omega)
      (fun x z => by simp) i hik
  · intro p hp
    rcases List.mem_append.mp hp with h1 | h2
    · rcases List.mem_map.mp h1 with ⟨j, _, rfl⟩
      simp
    · rcases List.mem_map.mp h2 with ⟨j, _, rfl⟩
      simp

/-- C4, amended.  Every input row of every series group appears in the
output once per horizon iteration; the copy appended at horizon iteration
`k+1` carries, for every horizon step `i+1` with `i ≤ k`, the original
continuous forecast in `yhat_raw{i+1}`, the class prediction `yhat{i+1}`
equal to the raw forecast rounded half-to-even (numpy's default rule),
and `residual{i+1}` equal to raw forecast minus the row's true label
`y`.  In particular the copy for the final iteration `k = n_forecasts - 1`
satisfies this for every horizon step. -/
theorem predict_columns_amended (n : ℕ) (df : List Row) (r : Row) (v : ℕ → ℚ)
    (hr : r ∈ df) (hcols : r.cols = initCols n v) (k : ℕ) (hk : k < n) (i : ℕ) (hik : i ≤ k) :
    stepsUpTo r.id (k + 1) r ∈ predict_post n df
    ∧ lookupCol (stepsUpTo r.id (k + 1) r).cols (Col.yhat_raw (i + 1)) = some (v i)
    ∧ lookupCol (stepsUpTo r.id (k + 1) r).cols (Col.yhat (i + 1))
        = some ((roundHalfEven (v i) : ℤ) : ℚ)
    ∧ lookupCol (stepsUpTo r.id (k + 1) r).cols (Col.residual (i + 1))
        = some (v i - r.y) := by
  have hca : (stepsUpTo r.id (k + 1) r).cols = colsAfter n (k + 1) v r.y :=
    stepsUpTo_colsAfter r.id n (k + 1) v r.y r (by omega) rfl hcols
  refine ⟨?_, ?_, ?_, ?_⟩
  · unfold predict_post
    apply List.mem_flatMap.mpr
    refine ⟨r.id, (mem_groupbyIds r.id df).mpr (List.mem_map.mpr ⟨r, hr, rfl⟩), ?_⟩
    unfold groupContribution
    apply List.mem_flatMap.mpr
    refine ⟨k, List.mem_range.mpr hk, ?_⟩
    exact List.mem_map.mpr ⟨r, List.mem_filter.mpr ⟨hr, by simp⟩, rfl⟩
  · rw [hca]
    exact lookupCol_colsAfter_yhat_raw n (k + 1) i v r.y (by omega)
  · rw [hca]
    exact lookupCol_colsAfter_yhat n (k + 1) i v r.y (by omega)
  · rw [hca]
    exact lookupCol_colsAfter_residual n (k + 1) i v r.y (by omega)


/-- Forecast values of the row used by the C4 witness. -/
def vRowC4 : ℕ → ℚ := fun _ => 2/10

/-- Row used by the C4 witness: one series, one horizon step. -/
def rowC4 : Row := ⟨"A", 0, initCols 1 vRowC4⟩

/-- C4, witness at a one-row, one-horizon frame. -/
theorem predict_columns_amended_witness :
    (rowC4 ∈ [rowC4]) ∧ (rowC4.cols = initCols 1 vRowC4) ∧ 0 < 1 ∧ 0 ≤ 0
    ∧ (stepsUpTo rowC4.id (0 + 1) rowC4 ∈ predict_post 1 [rowC4]
      ∧ lookupCol (stepsUpTo rowC4.id (0 + 1) rowC4).cols (Col.yhat_raw (0 + 1))
          = some (vRowC4 0)
      ∧ lookupCol (stepsUpTo rowC4.id (0 + 1) rowC4).cols (Col.yhat (0 + 1))
          = some ((roundHalfEven (vRowC4 0) : ℤ) : ℚ)
      ∧ lookupCol (stepsUpTo rowC4.id (0 + 1) rowC4).cols (Col.residual (0 + 1))
          = some (vRowC4 0 - rowC4.y)) :=
  ⟨List.mem_singleton.mpr rfl, rfl, by decide, by decide,
    predict_columns_amended 1 [rowC4] rowC4 vRowC4 (List.mem_singleton.mpr rfl) rfl 0
      (by decide) 0 (by decide)⟩

/-- Row with two horizon steps used by the C4 counterexample. -/
def rowTwoStep : Row := ⟨"A", 0, [(Col.yhat 1, 2/10), (Col.yhat 2, 7/10)]⟩

/-- C4, counterexample.  With `n_forecasts = 2` the frame is appended to
the output inside the horizon loop, so the output contains a copy of the
group processed only through horizon step 1: its first row has no
`yhat_raw2` column at all (and `yhat2` still holds the raw forecast), so
the claim does not hold of every output row. -/
theorem predict_partial_frame_cex :
    (predict_post 2 [rowTwoStep]).map (fun r => (lookupCol r.cols (Col.yhat_raw 2)).isSome)
      = [false, true] := rfl

/-- Row with an out-of-range raw forecast used by the C8 theorem. -/
def rowOutOfRange : Row := ⟨"A", 0, [(Col.yhat 1, 27/10)]⟩

/-- C8.  Predict performs no clamping or range validation: a raw forecast
of 2.7 (outside the interval from 0 to 1) is rounded to the class
prediction 3, which is neither 0 nor 1. -/
theorem predict_round_out_of_range :
    (1 : ℚ) < 27/10
    ∧ (predict_post 1 [rowOutOfRange]).map (fun r => lookupCol r.cols (Col.yhat 1))
        = [some 3]
    ∧ (3 : ℚ) ≠ 0 ∧ (3 : ℚ) ≠ 1 := by
  refine ⟨by norm_num, ?_, by norm_num, by norm_num⟩
  have h3 : roundHalfEven (27/10 : ℚ) = 3 := by
    unfold roundHalfEven
    norm_num
  show [some ((roundHalfEven ((27 : ℚ)/10) : ℤ) : ℚ)] = [some 3]
  rw [h3]
  norm_num

end Classification
